import Mathlib

/-!
Verification of the Diba panchanga engine core (`panchanga_engine.py`).

The Python source is embedded shallowly over `ℚ`: float arithmetic becomes
exact rational arithmetic, Python's `%` on floats (sign of the divisor)
becomes `qmod`, `math.fmod` (sign of the dividend) becomes `qfmod`, and
Python `int` becomes `ℤ` (Python's `%` on ints with a positive modulus
agrees with `Int.emod`).  The ephemeris provider is an external collaborator
and is passed in as an opaque function `ℚ → ℚ × ℚ` returning the Sun and
Moon longitudes at a given Julian day.
-/

/-- Python `x % y` on floats for `y > 0`: the representative of `x` modulo
`y` in `[0, y)`, computed with the floor (sign of the divisor). -/
def qmod (x y : ℚ) : ℚ := x - y * (⌊x / y⌋ : ℤ)

/-- Truncation toward zero, as used by C-style `fmod`. -/
def qtrunc (x : ℚ) : ℤ := if 0 ≤ x then ⌊x⌋ else ⌈x⌉

/-- Python `math.fmod(x, y)`: remainder with the sign of the dividend. -/
def qfmod (x y : ℚ) : ℚ := x - y * (qtrunc (x / y) : ℤ)

/-- `_unwrap_phase(prev, curr)` from `panchanga_engine.py` (lines 176-186):
make `curr` continuous relative to `prev` by handling the 0/360 wrap. -/
def _unwrap_phase (prev curr : ℚ) : ℚ :=
  let delta := curr - prev
  if delta < -180 then curr + 360
  else if delta > 180 then curr - 360
  else curr

/-- The `phase_mode` string parameter of `_collect_phase_events`; the three
values for which `get_phase` does not raise. -/
inductive PhaseMode
  | tithi
  | yoga
  | nakshatra
deriving DecidableEq

/-- The inner `get_phase(s, m)` of `_collect_phase_events` (lines 297-304). -/
def get_phase : PhaseMode → ℚ → ℚ → ℚ
  | PhaseMode.tithi, s, m => qmod (m - s) 360
  | PhaseMode.yoga, s, m => qmod (m + s) 360
  | PhaseMode.nakshatra, _, m => qmod m 360

/-- The candidate-boundary computation of the detector's inner crossing loop
(`panchanga_engine.py` lines 320-324): the next absolute target phase, the
raw difference from `prev_phase % 360`, the `diff += 360` adjustment when
`diff <= 0`, and the resulting `candidate_boundary = prev_phase + diff`. -/
def candidateBoundary (trackingIndex : ℤ) (stepDeg prevPhase : ℚ) : ℚ :=
  let targetAbsolute := ((trackingIndex : ℚ) + 1) * stepDeg
  let diff0 := targetAbsolute - qmod prevPhase 360
  let diff := if diff0 ≤ 0 then diff0 + 360 else diff0
  prevPhase + diff

/-- The mutable state of the `_collect_phase_events` loops: the accumulated
`events` list, the `tracking_index`, and the running `prev_phase` /
`prev_jd`.  The extra field `denoms` instruments the code: it records the
value of `curr_phase - prev_phase` at each evaluation of the interpolation
`ratio` (line 327), in evaluation order; the source reads that denominator
exactly once per emitted event and `denoms` changes nothing else. -/
structure DetectorState where
  events : List (ℤ × ℚ × ℚ)
  denoms : List ℚ
  tracking : ℤ
  prevPhase : ℚ
  prevJd : ℚ

/-- Fuel bound for the inner `while True` loop of `_collect_phase_events`.
Each pass of the loop either breaks or advances `prev_phase` to the
candidate boundary; with the engine's parameters (`step_deg > 0`,
`max_index * step_deg = 360`, `0 <= tracking_index < max_index`) the first
advance is positive and every later advance is exactly `step_deg`, so at
most `⌈(curr_phase - prev_phase) / step_deg⌉ + 1` passes can emit an event
inside one sample gap and this fuel never truncates the loop. -/
def innerFuel (stepDeg prevPhase currPhase : ℚ) : ℕ :=
  if 0 < stepDeg then (⌈(currPhase - prevPhase) / stepDeg⌉).toNat + 1 else 1

/-- The inner `while True` crossing loop of `_collect_phase_events`
(lines 319-336): while the candidate boundary lies at or below the current
unwrapped phase, linearly interpolate the crossing time, append the event,
advance `tracking_index` modulo `max_index`, and move `prev_phase` /
`prev_jd` to the emitted boundary; otherwise break. -/
def innerLoop (stepDeg : ℚ) (maxIndex : ℤ) (currPhase currJd : ℚ) :
    ℕ → DetectorState → DetectorState
  | 0, st => st
  | fuel + 1, st =>
    let candidate := candidateBoundary st.tracking stepDeg st.prevPhase
    if candidate ≤ currPhase then
      let interp := (candidate - st.prevPhase) / (currPhase - st.prevPhase)
      let jdCross := st.prevJd + interp * (currJd - st.prevJd)
      let normBoundary := qmod candidate 360
      innerLoop stepDeg maxIndex currPhase currJd fuel
        { events := st.events ++ [(st.tracking, jdCross, normBoundary)]
          denoms := st.denoms ++ [currPhase - st.prevPhase]
          tracking := (st.tracking + 1) % maxIndex
          prevPhase := candidate
          prevJd := jdCross }
    else st

/-- The outer per-sample loop of `_collect_phase_events` (lines 311-339):
unwrap the raw phase, skip sample pairs with equal phase, run the inner
crossing loop, then reset `prev_jd` / `prev_phase` to the current sample. -/
def phaseGo (stepDeg : ℚ) (maxIndex : ℤ) (mode : PhaseMode) :
    List (ℚ × ℚ × ℚ) → DetectorState → DetectorState
  | [], st => st
  | (jd, sunLon, moonLon) :: rest, st =>
    let rawPhase := get_phase mode sunLon moonLon
    let currPhase := _unwrap_phase st.prevPhase rawPhase
    if currPhase = st.prevPhase then
      phaseGo stepDeg maxIndex mode rest { st with prevPhase := currPhase, prevJd := jd }
    else
      let st' := innerLoop stepDeg maxIndex currPhase jd
        (innerFuel stepDeg st.prevPhase currPhase) st
      phaseGo stepDeg maxIndex mode rest { st' with prevPhase := currPhase, prevJd := jd }

/-- Full loop state of `_collect_phase_events` on a sample list: empty input
returns the (initial) state immediately, otherwise the first sample seeds
`prev_jd` / `prev_phase` / `tracking_index` and the outer loop runs over the
remaining samples. -/
def collectPhaseState (samples : List (ℚ × ℚ × ℚ)) (initialIndex : ℤ)
    (stepDeg : ℚ) (maxIndex : ℤ) (mode : PhaseMode) : DetectorState :=
  match samples with
  | [] => { events := [], denoms := [], tracking := initialIndex, prevPhase := 0, prevJd := 0 }
  | (jd0, sun0, moon0) :: rest =>
    phaseGo stepDeg maxIndex mode rest
      { events := [], denoms := [], tracking := initialIndex
        prevPhase := get_phase mode sun0 moon0, prevJd := jd0 }

/-- `_collect_phase_events(samples, initial_index, step_deg, max_index,
phase_mode)` (lines 279-341, the spec's `detect_boundaries`): the list of
`(ended_index, end_jd_utc, boundary_phase_mod_360)` events. -/
def _collect_phase_events (samples : List (ℚ × ℚ × ℚ)) (initialIndex : ℤ)
    (stepDeg : ℚ) (maxIndex : ℤ) (mode : PhaseMode) : List (ℤ × ℚ × ℚ) :=
  (collectPhaseState samples initialIndex stepDeg maxIndex mode).events

/-- The instrumented denominator trace of the same run: the value of
`curr_phase - prev_phase` at each evaluation of the interpolation ratio. -/
def collectPhaseDenoms (samples : List (ℚ × ℚ × ℚ)) (initialIndex : ℤ)
    (stepDeg : ℚ) (maxIndex : ℤ) (mode : PhaseMode) : List ℚ :=
  (collectPhaseState samples initialIndex stepDeg maxIndex mode).denoms

/-- `_sample_sun_moon_longitudes` (lines 344-370) with the ephemeris provider
abstracted as `frame : jd ↦ (sun_longitude, moon_longitude)`: evenly spaced
samples between the two sunrises, longitudes normalized via
`math.fmod(lon + 360, 360)`; empty when `samples_per_day < 2` or the span is
not positive. -/
def _sample_sun_moon_longitudes (frame : ℚ → ℚ × ℚ) (sunriseJdUtc nextSunriseJdUtc : ℚ)
    (samplesPerDay : ℤ) : List (ℚ × ℚ × ℚ) :=
  let span := nextSunriseJdUtc - sunriseJdUtc
  if samplesPerDay < 2 ∨ span ≤ 0 then []
  else
    (List.range samplesPerDay.toNat).map (fun i =>
      let frac := (i : ℚ) / ((samplesPerDay : ℚ) - 1)
      let jd := sunriseJdUtc + frac * span
      let longs := frame jd
      (jd, qfmod (longs.1 + 360) 360, qfmod (longs.2 + 360) 360))

/-- The nested `add(idx, start, end)` of `collect_karana_events_from_tithis`
(lines 414-419): skip degenerate intervals, otherwise emit the two karana
events at the midpoint and the end. -/
def karanaAdd (idx : ℤ) (start stop : ℚ) : List (ℤ × ℚ) :=
  if stop ≤ start then []
  else
    let mid := (start + stop) / 2
    [((idx * 2) % 60, mid), ((idx * 2 + 1) % 60, stop)]

/-- The loop of `collect_karana_events_from_tithis` (lines 421-431): walk the
tithi events, emitting karana pairs per interval, then handle the trailing
interval up to the next sunrise. -/
def karanaGo (nextSunriseJd : ℚ) : ℤ → ℚ → List (ℤ × ℚ) → List (ℤ × ℚ)
  | currIdx, currStart, [] =>
    if currStart < nextSunriseJd then karanaAdd currIdx currStart nextSunriseJd else []
  | currIdx, currStart, (evtIdx, evtEnd) :: rest =>
    karanaAdd currIdx currStart evtEnd ++ karanaGo nextSunriseJd ((evtIdx + 1) % 30) evtEnd rest

/-- `collect_karana_events_from_tithis` (lines 400-432, the spec's
`derive_karanas`): derive karana events from tithi intervals. -/
def collect_karana_events_from_tithis (sunriseJd nextSunriseJd : ℚ)
    (tithiIdxAtSunrise : ℤ) (tithiEvents : List (ℤ × ℚ)) : List (ℤ × ℚ) :=
  karanaGo nextSunriseJd tithiIdxAtSunrise sunriseJd tithiEvents

/-- The iteration of `_find_new_moon_jd` (lines 223-238): up to the given
fuel (5 in the source), evaluate the phase, take the directional distance to
the target, convert to days via the 12.19 deg/day synodic rate, and stop
early when the step falls below 1e-6 days. -/
def nmLoop (frame : ℚ → ℚ × ℚ) (direction : ℤ) : ℕ → ℚ → ℚ
  | 0, currJd => currJd
  | fuel + 1, currJd =>
    let fr := frame currJd
    let phase := qmod (fr.2 - fr.1) 360
    let distToTarget := if direction = 1 then 360 - phase else -phase
    let daysStep := distToTarget / (1219 / 100)
    if |daysStep| < 1 / 1000000 then currJd
    else nmLoop frame direction fuel (currJd + daysStep)

/-- `_find_new_moon_jd(eph, start_jd, direction, lat, lon)` (lines 211-240,
the spec's `find_synodic_zero`), with the ephemeris abstracted as `frame`. -/
def _find_new_moon_jd (frame : ℚ → ℚ × ℚ) (startJd : ℚ) (direction : ℤ) : ℚ :=
  nmLoop frame direction 5 startJd

/-- Spec-words model for claim C5 (spec section 4.4): the chain of tithi
intervals touching the civil day, "including the partial interval before the
first Tithi event and after the last", each tagged with its tithi index
(successor indices taken modulo 30 as in the source loop). -/
def tithiIntervals (sunriseJd nextSunriseJd : ℚ) (idx0 : ℤ) :
    List (ℤ × ℚ) → List (ℤ × ℚ × ℚ)
  | [] => [(idx0, sunriseJd, nextSunriseJd)]
  | (evtIdx, evtEnd) :: rest =>
    (idx0, sunriseJd, evtEnd) :: tithiIntervals evtEnd nextSunriseJd ((evtIdx + 1) % 30) rest

/-- Spec-words model for claim C5 (spec section 4.4): "For each Tithi
interval [start, end) with Tithi index i: emit two Karana events — index
(2i) mod 60 ending at mid = (start+end)/2, and index (2i+1) mod 60 ending at
end"; "Degenerate intervals (end ≤ start) are skipped". -/
def karanaOfIntervals (intervals : List (ℤ × ℚ × ℚ)) : List (ℤ × ℚ) :=
  intervals.flatMap (fun iv =>
    if iv.2.2 ≤ iv.2.1 then []
    else [((2 * iv.1) % 60, (iv.2.1 + iv.2.2) / 2), ((2 * iv.1 + 1) % 60, iv.2.2)])

/-- Spec-words model for claim C6: the signed angular distance from `phase`
(in `[0, 360)`) to the target 0° "taking the shortest path on the circle",
so of magnitude at most 180°. -/
def shortestDist (phase : ℚ) : ℚ := if phase ≤ 180 then -phase else 360 - phase

/-- Spec-words model for claim C6 (spec section 4.5): the solver as the spec
describes it — on the very first iteration only, the distance to the target
is biased to move in the requested direction; on every later iteration the
shortest-path distance is used. -/
def nmLoopSpec (frame : ℚ → ℚ × ℚ) (direction : ℤ) : ℕ → Bool → ℚ → ℚ
  | 0, _, currJd => currJd
  | fuel + 1, first, currJd =>
    let fr := frame currJd
    let phase := qmod (fr.2 - fr.1) 360
    let dist := if first then (if direction = 1 then 360 - phase else -phase)
                else shortestDist phase
    let daysStep := dist / (1219 / 100)
    if |daysStep| < 1 / 1000000 then currJd
    else nmLoopSpec frame direction fuel false (currJd + daysStep)

/-- Spec-words model for claim C6: `find_synodic_zero` as described by the
spec, for comparison against `_find_new_moon_jd`. -/
def find_synodic_zero_spec (frame : ℚ → ℚ × ℚ) (startJd : ℚ) (direction : ℤ) : ℚ :=
  nmLoopSpec frame direction 5 true startJd

/-- A constant ephemeris stub: Sun fixed at 0°, Moon fixed at 90°, so the
synodic phase is 90° at every instant. -/
def constFrame90 : ℚ → ℚ × ℚ := fun _ => (0, 90)

/-- A half-open-style time range `[start_jd_utc, end_jd_utc]` in UT Julian
days, as used by the special-window scenario in the tests. -/
structure TimeRange where
  start_jd_utc : ℚ
  end_jd_utc : ℚ

/-- The four time ranges returned by `special_windows`. -/
structure SpecialTimes where
  rahu_kalam : TimeRange
  yamaganda_kalam : TimeRange
  gulika_kalam : TimeRange
  abhijit_muhurta : TimeRange

/-- Modelled from the spec: the per-weekday Rahu Kalam start offsets
(fraction of day length) of the `SpecialWindowCalculator`; the implementing
code is not under `src/` (only `tests/test_panchanga_advanced.py` refers to
`result.special_times`).  The spec and the test comment pin only entry 2
(Tuesday) to `0.75`; the remaining entries follow the traditional eighth-part
table and are not exercised by any claim. -/
def rahuOffsets : Fin 7 → ℚ
  | 0 => 7/8
  | 1 => 1/8
  | 2 => 3/4
  | 3 => 1/2
  | 4 => 5/8
  | 5 => 3/8
  | 6 => 1/4

/-- Modelled from the spec: Yamaganda start offsets (not pinned by the spec
beyond being a fixed 7-entry table; unexercised by the claims). -/
def yamaOffsets : Fin 7 → ℚ
  | 0 => 4/8
  | 1 => 3/8
  | 2 => 2/8
  | 3 => 1/8
  | 4 => 0
  | 5 => 6/8
  | 6 => 5/8

/-- Modelled from the spec: Gulika start offsets (not pinned by the spec
beyond being a fixed 7-entry table; unexercised by the claims). -/
def gulikaOffsets : Fin 7 → ℚ
  | 0 => 6/8
  | 1 => 5/8
  | 2 => 4/8
  | 3 => 3/8
  | 4 => 2/8
  | 5 => 1/8
  | 6 => 0

/-- Modelled from the spec, section 4.6: `special_windows(sunrise, sunset,
weekday_index) → four time ranges`.  The implementation is missing from
`src/`; per the spec it is a "pure closed-form partition of [sunrise,
sunset] into eight equal slices; three named inauspicious windows (each one
slice wide) are selected per weekday via a fixed 7-entry offset table
(fraction of day-length to the window's start); a separate auspicious
window ('midday muhurta') is the 8th–9th fifteenth of the sunrise–sunset
span". -/
def special_windows (sunrise sunset : ℚ) (weekdayIndex : Fin 7) : SpecialTimes :=
  let span := sunset - sunrise
  let slice := span / 8
  let window := fun (off : ℚ) => TimeRange.mk (sunrise + off * span) (sunrise + off * span + slice)
  { rahu_kalam := window (rahuOffsets weekdayIndex)
    yamaganda_kalam := window (yamaOffsets weekdayIndex)
    gulika_kalam := window (gulikaOffsets weekdayIndex)
    abhijit_muhurta := TimeRange.mk (sunrise + 7/15 * span) (sunrise + 9/15 * span) }

/-! ### Basic facts about `qmod` -/

theorem qmod_nonneg (x : ℚ) : 0 ≤ qmod x 360 := by
  have h := Int.floor_le (x / 360)
  have h2 : (360 : ℚ) * (⌊x / 360⌋ : ℚ) ≤ 360 * (x / 360) := by
    have : (0 : ℚ) ≤ 360 := by norm_num
    exact mul_le_mul_of_nonneg_left h this
  have h3 : (360 : ℚ) * (x / 360) = x := by ring
  unfold qmod
  linarith

theorem qmod_lt (x : ℚ) : qmod x 360 < 360 := by
  have h := Int.lt_floor_add_one (x / 360)
  have h2 : 360 * (x / 360) < 360 * ((⌊x / 360⌋ : ℚ) + 1) := by
    have : (0 : ℚ) < 360 := by norm_num
    exact (mul_lt_mul_left this).mpr h
  have h3 : (360 : ℚ) * (x / 360) = x := by ring
  unfold qmod
  linarith

theorem qmod_add_int_mul (x : ℚ) (k : ℤ) : qmod (x + 360 * k) 360 = qmod x 360 := by
  unfold qmod
  have h : (x + 360 * (k : ℚ)) / 360 = x / 360 + (k : ℚ) := by ring
  rw [h, Int.floor_add_int]
  push_cast
  ring

theorem qmod_sub_eq (x : ℚ) : x - qmod x 360 = 360 * (⌊x / 360⌋ : ℚ) := by
  unfold qmod
  ring

theorem qmod_eq_self (x : ℚ) (h0 : 0 ≤ x) (h1 : x < 360) : qmod x 360 = x := by
  unfold qmod
  have : ⌊x / 360⌋ = 0 := by
    rw [Int.floor_eq_zero_iff]
    constructor
    · positivity
    · rw [div_lt_one (by norm_num : (0:ℚ) < 360)]
      simpa using h1
  rw [this]
  push_cast
  ring

theorem qmod_eq_qmod_iff (x y : ℚ) :
    qmod x 360 = qmod y 360 ↔ ∃ k : ℤ, x - y = 360 * k := by
  constructor
  · intro h
    refine ⟨⌊x / 360⌋ - ⌊y / 360⌋, ?_⟩
    have hx := qmod_sub_eq x
    have hy := qmod_sub_eq y
    push_cast
    have : x - qmod x 360 - (y - qmod y 360) = 360 * (⌊x / 360⌋ : ℚ) - 360 * (⌊y / 360⌋ : ℚ) := by
      rw [hx, hy]
    rw [h] at this
    linarith
  · rintro ⟨k, hk⟩
    have hx : x = y + 360 * (k : ℚ) := by linarith
    rw [hx, qmod_add_int_mul]

/-! ### Claim C8 — `_unwrap_phase` -/

/-- C8 (counterexample): at `prev = 0`, `curr = 180` the naive difference is
180°, which is below the claim's 540° guard, yet the returned value differs
from `prev` by exactly 180°, not strictly less than 180° as the claim
states. -/
theorem unwrap_phase_strict_bound_fails :
    |(180 : ℚ) - 0| < 540 ∧ _unwrap_phase 0 180 = 180 ∧
    ¬ |_unwrap_phase 0 180 - 0| < 180 := by
  norm_num [_unwrap_phase]

/-- C8 (amended): `_unwrap_phase prev curr` is the member of
`{curr - 360, curr, curr + 360}` closest to `prev`, subtracting or adding
360° exactly when the naive difference exceeds +180° or is below −180°; the
result is congruent to `curr` modulo 360; and whenever `|curr - prev| < 540`
the returned value differs from `prev` by at most 180° in magnitude. -/
theorem unwrap_phase_correct (prev curr : ℚ) :
    (_unwrap_phase prev curr = curr - 360 ∨ _unwrap_phase prev curr = curr ∨
      _unwrap_phase prev curr = curr + 360) ∧
    (curr - prev < -180 → _unwrap_phase prev curr = curr + 360) ∧
    (curr - prev > 180 → _unwrap_phase prev curr = curr - 360) ∧
    (-180 ≤ curr - prev → curr - prev ≤ 180 → _unwrap_phase prev curr = curr) ∧
    qmod (_unwrap_phase prev curr) 360 = qmod curr 360 ∧
    |_unwrap_phase prev curr - prev| ≤ |curr - 360 - prev| ∧
    |_unwrap_phase prev curr - prev| ≤ |curr - prev| ∧
    |_unwrap_phase prev curr - prev| ≤ |curr + 360 - prev| ∧
    (|curr - prev| < 540 → |_unwrap_phase prev curr - prev| ≤ 180) := by
  have hsub : ∀ x : ℚ, qmod (x - 360) 360 = qmod x 360 := by
    intro x
    have := qmod_add_int_mul x (-1)
    push_cast at this
    rw [← this]
    ring_nf
  have hadd : ∀ x : ℚ, qmod (x + 360) 360 = qmod x 360 := by
    intro x
    have := qmod_add_int_mul x 1
    push_cast at this
    rw [← this]
    ring_nf
  simp only [_unwrap_phase]
  split_ifs with h1 h2
  · refine ⟨Or.inr (Or.inr rfl), fun _ => rfl, by intro h; linarith, by intro h; linarith,
      hadd curr, ?_, ?_, ?_, ?_⟩
    · rcases abs_cases (curr + 360 - prev) with ⟨e1, s1⟩ | ⟨e1, s1⟩ <;>
        rcases abs_cases (curr - 360 - prev) with ⟨e2, s2⟩ | ⟨e2, s2⟩ <;>
        rw [e1, e2] <;> linarith
    · rcases abs_cases (curr + 360 - prev) with ⟨e1, s1⟩ | ⟨e1, s1⟩ <;>
        rcases abs_cases (curr - prev) with ⟨e2, s2⟩ | ⟨e2, s2⟩ <;>
        rw [e1, e2] <;> linarith
    · exact le_refl _
    · intro hb
      rcases abs_cases (curr - prev) with ⟨e3, s3⟩ | ⟨e3, s3⟩ <;> rw [e3] at hb <;>
        rcases abs_cases (curr + 360 - prev) with ⟨e1, s1⟩ | ⟨e1, s1⟩ <;>
        rw [e1] <;> linarith
  · refine ⟨Or.inl rfl, by intro h; linarith, fun _ => rfl, by intro _ h; linarith,
      hsub curr, ?_, ?_, ?_, ?_⟩
    · exact le_refl _
    · rcases abs_cases (curr - 360 - prev) with ⟨e1, s1⟩ | ⟨e1, s1⟩ <;>
        rcases abs_cases (curr - prev) with ⟨e2, s2⟩ | ⟨e2, s2⟩ <;>
        rw [e1, e2] <;> linarith
    · rcases abs_cases (curr - 360 - prev) with ⟨e1, s1⟩ | ⟨e1, s1⟩ <;>
        rcases abs_cases (curr + 360 - prev) with ⟨e2, s2⟩ | ⟨e2, s2⟩ <;>
        rw [e1, e2] <;> linarith
    · intro hb
      rcases abs_cases (curr - prev) with ⟨e3, s3⟩ | ⟨e3, s3⟩ <;> rw [e3] at hb <;>
        rcases abs_cases (curr - 360 - prev) with ⟨e1, s1⟩ | ⟨e1, s1⟩ <;>
        rw [e1] <;> linarith
  · refine ⟨Or.inr (Or.inl rfl), by intro h; linarith, by intro h; linarith,
      fun _ _ => rfl, rfl, ?_, le_refl _, ?_, ?_⟩
    · rcases abs_cases (curr - prev) with ⟨e1, s1⟩ | ⟨e1, s1⟩ <;>
        rcases abs_cases (curr - 360 - prev) with ⟨e2, s2⟩ | ⟨e2, s2⟩ <;>
        rw [e1, e2] <;> linarith
    · rcases abs_cases (curr - prev) with ⟨e1, s1⟩ | ⟨e1, s1⟩ <;>
        rcases abs_cases (curr + 360 - prev) with ⟨e2, s2⟩ | ⟨e2, s2⟩ <;>
        rw [e1, e2] <;> linarith
    · intro hb
      rcases abs_cases (curr - prev) with ⟨e1, s1⟩ | ⟨e1, s1⟩ <;> rw [e1] at hb ⊢ <;> linarith

/-- C8 witness: the amended theorem applied at `prev = 0`, `curr = 200`. -/
theorem unwrap_phase_correct_witness : |_unwrap_phase 0 200 - 0| ≤ 180 :=
  (unwrap_phase_correct 0 200).2.2.2.2.2.2.2.2 (by norm_num)

/-! ### Claim C4 — the candidate-boundary computation -/

theorem candidateBoundary_congr (trk : ℤ) (stepDeg prevPhase : ℚ) :
    qmod (candidateBoundary trk stepDeg prevPhase) 360 =
      qmod (((trk : ℚ) + 1) * stepDeg) 360 := by
  simp only [candidateBoundary]
  split_ifs with h
  · rw [qmod_eq_qmod_iff]
    refine ⟨⌊prevPhase / 360⌋ + 1, ?_⟩
    have := qmod_sub_eq prevPhase
    push_cast
    linarith
  · rw [qmod_eq_qmod_iff]
    refine ⟨⌊prevPhase / 360⌋, ?_⟩
    have := qmod_sub_eq prevPhase
    linarith

theorem candidateBoundary_gt (trk : ℤ) (stepDeg prevPhase : ℚ)
    (htrk : 0 ≤ trk) (hstep : 0 < stepDeg) :
    prevPhase < candidateBoundary trk stepDeg prevPhase := by
  have htq : (0 : ℚ) ≤ (trk : ℚ) := by exact_mod_cast htrk
  have htarget : 0 < ((trk : ℚ) + 1) * stepDeg := by positivity
  have hq := qmod_lt prevPhase
  simp only [candidateBoundary]
  split_ifs with h <;> linarith

theorem candidateBoundary_le (trk : ℤ) (stepDeg prevPhase : ℚ)
    (hle : ((trk : ℚ) + 1) * stepDeg ≤ 360) :
    candidateBoundary trk stepDeg prevPhase ≤ prevPhase + 360 := by
  have hq := qmod_nonneg prevPhase
  simp only [candidateBoundary]
  split_ifs with h <;> linarith

/-- C4 (counterexample): with `tracking_index = 0`, `step_degrees = 12` and
`prev_phase = 12`, the value 12 itself is `≥ prev_phase` and congruent to
`(tracking_index + 1) * step_degrees` modulo 360, yet the code's candidate
is 372, so the candidate is not the smallest such value `≥ prev_phase` (it
is the smallest such value strictly greater than `prev_phase`). -/
theorem candidate_not_least_ge :
    ¬ (∀ x : ℚ, 12 ≤ x → qmod x 360 = qmod ((((0 : ℤ) : ℚ) + 1) * 12) 360 →
        candidateBoundary 0 12 12 ≤ x) := by
  intro h
  have h12 : qmod (12 : ℚ) 360 = 12 := qmod_eq_self 12 (by norm_num) (by norm_num)
  have htarget : qmod ((((0 : ℤ) : ℚ) + 1) * 12) 360 = 12 := by
    rw [show (((0 : ℤ) : ℚ) + 1) * 12 = 12 by push_cast; ring, h12]
  have hc : candidateBoundary 0 12 12 = 372 := by
    simp only [candidateBoundary, h12]
    norm_num
  have := h 12 le_rfl (by rw [h12, htarget])
  rw [hc] at this
  linarith

/-- C4 (amended): at every evaluation of the inner crossing loop with valid
parameters (`0 ≤ tracking_index`, `0 < step_degrees`, and
`(tracking_index + 1) * step_degrees ≤ 360`, which hold throughout the loop
for the engine's instantiations), the candidate boundary is the smallest
absolute phase value strictly greater than `prev_phase` congruent to
`(tracking_index + 1) * step_degrees` modulo 360, and it equals
`prev_phase + diff` where `diff = ((target − prev_phase) mod 360)` with
`diff += 360` applied when `diff ≤ 0`. -/
theorem candidate_least_gt (trk : ℤ) (stepDeg prevPhase : ℚ)
    (htrk : 0 ≤ trk) (hstep : 0 < stepDeg) (hle : ((trk : ℚ) + 1) * stepDeg ≤ 360) :
    prevPhase < candidateBoundary trk stepDeg prevPhase ∧
    qmod (candidateBoundary trk stepDeg prevPhase) 360 =
      qmod (((trk : ℚ) + 1) * stepDeg) 360 ∧
    (∀ x : ℚ, prevPhase < x → qmod x 360 = qmod (((trk : ℚ) + 1) * stepDeg) 360 →
      candidateBoundary trk stepDeg prevPhase ≤ x) ∧
    candidateBoundary trk stepDeg prevPhase =
      prevPhase + (if qmod (((trk : ℚ) + 1) * stepDeg - prevPhase) 360 ≤ 0
        then qmod (((trk : ℚ) + 1) * stepDeg - prevPhase) 360 + 360
        else qmod (((trk : ℚ) + 1) * stepDeg - prevPhase) 360) := by
  set c := candidateBoundary trk stepDeg prevPhase with hc
  have hgt := candidateBoundary_gt trk stepDeg prevPhase htrk hstep
  have hle360 := candidateBoundary_le trk stepDeg prevPhase hle
  have hcongr := candidateBoundary_congr trk stepDeg prevPhase
  refine ⟨hgt, hcongr, ?_, ?_⟩
  · intro x hx hxc
    by_contra hlt
    push_neg at hlt
    have : qmod x 360 = qmod c 360 := by rw [hxc, hcongr]
    obtain ⟨k, hk⟩ := (qmod_eq_qmod_iff x c).mp this
    have hkneg : (k : ℚ) < 0 := by nlinarith
    have hkint : k ≤ -1 := by
      have : k < 0 := by exact_mod_cast hkneg
      omega
    have hkq : (k : ℚ) ≤ -1 := by exact_mod_cast hkint
    nlinarith
  · set d2 := qmod (((trk : ℚ) + 1) * stepDeg - prevPhase) 360 with hd2
    have hd2n := qmod_nonneg (((trk : ℚ) + 1) * stepDeg - prevPhase)
    have hd2l := qmod_lt (((trk : ℚ) + 1) * stepDeg - prevPhase)
    have hsub := qmod_sub_eq (((trk : ℚ) + 1) * stepDeg - prevPhase)
    -- the claim-side diff, in (0, 360], congruent to target - prevPhase
    set dcl := if d2 ≤ 0 then d2 + 360 else d2 with hdcl
    have hdcl_pos : 0 < dcl := by
      rw [hdcl]; split_ifs with h <;> [linarith; linarith]
    have hdcl_le : dcl ≤ 360 := by
      rw [hdcl]; split_ifs with h <;> linarith
    have hdcl_congr : ∃ k : ℤ, dcl - (((trk : ℚ) + 1) * stepDeg - prevPhase) = 360 * k := by
      rw [hdcl]
      split_ifs with h
      · exact ⟨-⌊((((trk : ℚ) + 1) * stepDeg - prevPhase) / 360)⌋ + 1, by push_cast; linarith⟩
      · exact ⟨-⌊((((trk : ℚ) + 1) * stepDeg - prevPhase) / 360)⌋, by push_cast; linarith⟩
    -- the code-side diff, also in (0, 360], also congruent to target - prevPhase
    have hcode_congr : ∃ k : ℤ, (c - prevPhase) - (((trk : ℚ) + 1) * stepDeg - prevPhase) = 360 * k := by
      obtain ⟨k, hk⟩ := (qmod_eq_qmod_iff c (((trk : ℚ) + 1) * stepDeg)).mp hcongr
      exact ⟨k, by linarith⟩
    obtain ⟨k1, hk1⟩ := hdcl_congr
    obtain ⟨k2, hk2⟩ := hcode_congr
    have hdiffk : (c - prevPhase) - dcl = 360 * ((k2 : ℚ) - (k1 : ℚ)) := by linarith
    have hksmall : k2 - k1 = 0 := by
      have h1 : (360 : ℚ) * ((k2 : ℚ) - (k1 : ℚ)) < 360 := by linarith
      have h2 : (-360 : ℚ) < 360 * ((k2 : ℚ) - (k1 : ℚ)) := by linarith
      have hlt1 : ((k2 - k1 : ℤ) : ℚ) < 1 := by push_cast; linarith
      have hgt1 : (-1 : ℚ) < ((k2 - k1 : ℤ) : ℚ) := by push_cast; linarith
      have : (k2 - k1 : ℤ) < 1 := by exact_mod_cast hlt1
      have : (-1 : ℤ) < (k2 - k1 : ℤ) := by exact_mod_cast hgt1
      omega
    have : (c - prevPhase) - dcl = 0 := by
      rw [hdiffk, show (k2 : ℚ) - (k1 : ℚ) = ((k2 - k1 : ℤ) : ℚ) by push_cast; ring,
        hksmall]
      norm_num
    linarith

/-- C4 witness: the amended theorem applied at `tracking_index = 0`,
`step = 12`, `prev_phase = 5`; minimality applied at the concrete congruent
value 12 pins the candidate into `(5, 12]`. -/
theorem candidate_least_gt_witness :
    (5 : ℚ) < candidateBoundary 0 12 5 ∧ candidateBoundary 0 12 5 ≤ 12 := by
  have h := candidate_least_gt 0 12 5 (by norm_num) (by norm_num) (by push_cast; norm_num)
  refine ⟨h.1, h.2.2.1 12 (by norm_num) ?_⟩
  rw [qmod_eq_self 12 (by norm_num) (by norm_num)]
  push_cast
  rw [show ((0:ℚ) + 1) * 12 = 12 by ring, qmod_eq_self 12 (by norm_num) (by norm_num)]

/-! ### Claim C5 — karana derivation from tithi intervals -/

theorem karanaAdd_eq (idx : ℤ) (start stop : ℚ) :
    karanaAdd idx start stop =
      if stop ≤ start then []
      else [((2 * idx) % 60, (start + stop) / 2), ((2 * idx + 1) % 60, stop)] := by
  simp only [karanaAdd]
  rw [Int.mul_comm idx 2]

/-- C5: `collect_karana_events_from_tithis` emits, for each tithi interval
`[start, end)` with tithi index `i` in the processed chain — including the
partial interval before the first tithi event and after the last — exactly
the two karana events `((2i) mod 60, (start+end)/2)` and
`((2i+1) mod 60, end)` when `end > start`, and nothing when `end ≤ start`. -/
theorem karana_events_spec (sunriseJd nextSunriseJd : ℚ) (tithiIdxAtSunrise : ℤ)
    (tithiEvents : List (ℤ × ℚ)) :
    collect_karana_events_from_tithis sunriseJd nextSunriseJd tithiIdxAtSunrise tithiEvents =
      karanaOfIntervals (tithiIntervals sunriseJd nextSunriseJd tithiIdxAtSunrise tithiEvents) := by
  unfold collect_karana_events_from_tithis
  induction tithiEvents generalizing sunriseJd tithiIdxAtSunrise with
  | nil =>
    simp only [karanaGo, tithiIntervals, karanaOfIntervals, List.flatMap_cons,
      List.flatMap_nil, List.append_nil, karanaAdd_eq]
    split_ifs with h1 h2 h3 <;> first | rfl | linarith
  | cons head rest ih =>
    obtain ⟨evtIdx, evtEnd⟩ := head
    simp only [karanaGo, tithiIntervals, karanaOfIntervals, List.flatMap_cons] at *
    rw [ih]
    congr 1
    rw [karanaAdd_eq]

/-! ### Claim C9 — empty results on invalid intervals -/

/-- C9: the detector returns the empty event list on zero samples and on
exactly one sample, and the sampler returns the empty sample list when
`samples_per_day < 2` or the end time is not after the start time. -/
theorem detector_and_sampler_empty :
    (∀ (initialIndex : ℤ) (stepDeg : ℚ) (maxIndex : ℤ) (mode : PhaseMode),
      _collect_phase_events [] initialIndex stepDeg maxIndex mode = []) ∧
    (∀ (s : ℚ × ℚ × ℚ) (initialIndex : ℤ) (stepDeg : ℚ) (maxIndex : ℤ) (mode : PhaseMode),
      _collect_phase_events [s] initialIndex stepDeg maxIndex mode = []) ∧
    (∀ (frame : ℚ → ℚ × ℚ) (sunriseJdUtc nextSunriseJdUtc : ℚ) (samplesPerDay : ℤ),
      samplesPerDay < 2 ∨ nextSunriseJdUtc - sunriseJdUtc ≤ 0 →
      _sample_sun_moon_longitudes frame sunriseJdUtc nextSunriseJdUtc samplesPerDay = []) := by
  refine ⟨fun _ _ _ _ => rfl, ?_, ?_⟩
  · rintro ⟨jd, sunLon, moonLon⟩ initialIndex stepDeg maxIndex mode
    rfl
  · intro frame sunriseJdUtc nextSunriseJdUtc samplesPerDay h
    simp only [_sample_sun_moon_longitudes]
    rw [if_pos h]

/-- C9 witness: the sampler branch applied at a concrete degenerate span. -/
theorem detector_and_sampler_empty_witness :
    _sample_sun_moon_longitudes (fun _ => (0, 0)) 0 0 5 = [] :=
  detector_and_sampler_empty.2.2 (fun _ => (0, 0)) 0 0 5 (Or.inr (by norm_num))

/-! ### Claim C7 — special windows (spec-modelled) -/

/-- C7: `special_windows` returns four time ranges, and on weekday index 2
(Tuesday) the Rahu Kalam window starts at
`sunrise + 0.75 * (sunset − sunrise)` and spans exactly
`(sunset − sunrise) / 8`. -/
theorem special_windows_tuesday_rahu (sunrise sunset : ℚ) :
    (special_windows sunrise sunset 2).rahu_kalam.start_jd_utc =
      sunrise + 3 / 4 * (sunset - sunrise) ∧
    (special_windows sunrise sunset 2).rahu_kalam.end_jd_utc -
        (special_windows sunrise sunset 2).rahu_kalam.start_jd_utc =
      (sunset - sunrise) / 8 := by
  constructor
  · simp only [special_windows, rahuOffsets]
  · simp only [special_windows, rahuOffsets]
    ring

/-! ### Claim C6 — `_find_new_moon_jd` -/

theorem nmLoop_forward_le (frame : ℚ → ℚ × ℚ) (direction : ℤ) (hd : direction = 1) :
    ∀ (fuel : ℕ) (currJd : ℚ), currJd ≤ nmLoop frame direction fuel currJd := by
  intro fuel
  induction fuel with
  | zero => intro currJd; exact le_refl _
  | succ n ih =>
    intro currJd
    simp only [nmLoop, if_pos hd]
    split_ifs with h
    · exact le_refl _
    · have hphase := qmod_lt ((frame currJd).2 - (frame currJd).1)
      have hstep : 0 < (360 - qmod ((frame currJd).2 - (frame currJd).1) 360) / (1219 / 100) := by
        apply div_pos (by linarith) (by norm_num)
      calc currJd ≤ currJd + (360 - qmod ((frame currJd).2 - (frame currJd).1) 360) / (1219 / 100) := by
            linarith
        _ ≤ _ := ih _

theorem nmLoop_backward_le (frame : ℚ → ℚ × ℚ) (direction : ℤ) (hd : direction ≠ 1) :
    ∀ (fuel : ℕ) (currJd : ℚ), nmLoop frame direction fuel currJd ≤ currJd := by
  intro fuel
  induction fuel with
  | zero => intro currJd; exact le_refl _
  | succ n ih =>
    intro currJd
    simp only [nmLoop, if_neg hd]
    split_ifs with h
    · exact le_refl _
    · have hphase := qmod_nonneg ((frame currJd).2 - (frame currJd).1)
      have hstep : -qmod ((frame currJd).2 - (frame currJd).1) 360 / (1219 / 100) ≤ 0 := by
        apply div_nonpos_of_nonpos_of_nonneg (by linarith) (by norm_num)
      calc nmLoop frame direction n (currJd + -qmod ((frame currJd).2 - (frame currJd).1) 360 / (1219 / 100))
            ≤ currJd + -qmod ((frame currJd).2 - (frame currJd).1) 360 / (1219 / 100) := ih _
        _ ≤ currJd := by linarith

/-- C6 (amended): the solver's distance-to-target is the full directional
distance on every iteration — `360 − phase` when `direction = 1` and
`−phase` otherwise — not the shortest path, so each step moves the estimate
monotonically in the requested direction and the solver never self-corrects
backward after an overshoot. -/
theorem find_new_moon_jd_directional (frame : ℚ → ℚ × ℚ) (startJd : ℚ) (direction : ℤ) :
    (direction = 1 → startJd ≤ _find_new_moon_jd frame startJd direction) ∧
    (direction ≠ 1 → _find_new_moon_jd frame startJd direction ≤ startJd) := by
  constructor
  · intro h
    exact nmLoop_forward_le frame direction h 5 startJd
  · intro h
    exact nmLoop_backward_le frame direction h 5 startJd

/-- C6 witness: the amended theorem applied with the constant phase-90 stub,
start 0, direction +1. -/
theorem find_new_moon_jd_directional_witness :
    (0 : ℚ) ≤ _find_new_moon_jd constFrame90 0 1 :=
  (find_new_moon_jd_directional constFrame90 0 1).1 rfl

/-- C6 (counterexample): with a constant synodic phase of 90° and
`direction = +1`, `_find_new_moon_jd` steps by the full forward distance
`270°/12.19` on every one of its 5 iterations, ending at `135000/1219`,
whereas the spec's shortest-path solver (first iteration biased, the rest
taking the ≤ 180° shortest path) ends at `−9000/1219`; the code does not
take the shortest path after the first iteration. -/
theorem find_new_moon_not_shortest_path :
    _find_new_moon_jd constFrame90 0 1 = 135000 / 1219 ∧
    find_synodic_zero_spec constFrame90 0 1 = -9000 / 1219 ∧
    _find_new_moon_jd constFrame90 0 1 ≠ find_synodic_zero_spec constFrame90 0 1 := by
  have hq : qmod ((90 : ℚ) - 0) 360 = 90 := by
    rw [show (90 : ℚ) - 0 = 90 by norm_num]
    exact qmod_eq_self 90 (by norm_num) (by norm_num)
  have h1 : _find_new_moon_jd constFrame90 0 1 = 135000 / 1219 := by
    simp only [_find_new_moon_jd, show (5 : ℕ) = 4 + 1 from rfl,
      show (4 : ℕ) = 3 + 1 from rfl, show (3 : ℕ) = 2 + 1 from rfl,
      show (2 : ℕ) = 1 + 1 from rfl, show (1 : ℕ) = 0 + 1 from rfl,
      nmLoop, constFrame90, hq, if_pos rfl]
    norm_num [abs_of_pos]
  have h2 : find_synodic_zero_spec constFrame90 0 1 = -9000 / 1219 := by
    simp only [find_synodic_zero_spec, show (5 : ℕ) = 4 + 1 from rfl,
      show (4 : ℕ) = 3 + 1 from rfl, show (3 : ℕ) = 2 + 1 from rfl,
      show (2 : ℕ) = 1 + 1 from rfl, show (1 : ℕ) = 0 + 1 from rfl,
      nmLoopSpec, constFrame90, hq, shortestDist]
    norm_num [abs_of_pos]
  exact ⟨h1, h2, by rw [h1, h2]; norm_num⟩

/-! ### Detector loop invariants (claims C1, C2, C3, C10) -/

theorem innerLoop_inv (stepDeg : ℚ) (maxIndex : ℤ) (currPhase currJd t0 : ℚ)
    (hstep : 0 < stepDeg) :
    ∀ (fuel : ℕ) (st : DetectorState),
      0 ≤ st.tracking → st.prevJd ≤ currJd → t0 ≤ st.prevJd →
      List.Pairwise (· ≤ ·) (st.events.map (fun e => e.2.1)) →
      (∀ e ∈ st.events, e.2.1 ≤ st.prevJd ∧ t0 ≤ e.2.1) →
      (∀ d ∈ st.denoms, 0 < d) →
      0 ≤ (innerLoop stepDeg maxIndex currPhase currJd fuel st).tracking ∧
      st.prevJd ≤ (innerLoop stepDeg maxIndex currPhase currJd fuel st).prevJd ∧
      (innerLoop stepDeg maxIndex currPhase currJd fuel st).prevJd ≤ currJd ∧
      t0 ≤ (innerLoop stepDeg maxIndex currPhase currJd fuel st).prevJd ∧
      List.Pairwise (· ≤ ·)
        ((innerLoop stepDeg maxIndex currPhase currJd fuel st).events.map (fun e => e.2.1)) ∧
      (∀ e ∈ (innerLoop stepDeg maxIndex currPhase currJd fuel st).events,
        e.2.1 ≤ (innerLoop stepDeg maxIndex currPhase currJd fuel st).prevJd ∧ t0 ≤ e.2.1) ∧
      (∀ d ∈ (innerLoop stepDeg maxIndex currPhase currJd fuel st).denoms, 0 < d) := by
  intro fuel
  induction fuel with
  | zero =>
    intro st htrk hjd ht0 hpw hev hden
    simp only [innerLoop]
    exact ⟨htrk, le_refl _, hjd, ht0, hpw, hev, hden⟩
  | succ n ih =>
    intro st htrk hjd ht0 hpw hev hden
    simp only [innerLoop]
    split_ifs with hcl
    · have hcand_gt : st.prevPhase < candidateBoundary st.tracking stepDeg st.prevPhase :=
        candidateBoundary_gt st.tracking stepDeg st.prevPhase htrk hstep
      have hden_pos : 0 < currPhase - st.prevPhase := by linarith
      have hinterp_pos :
          0 < (candidateBoundary st.tracking stepDeg st.prevPhase - st.prevPhase) /
            (currPhase - st.prevPhase) := div_pos (by linarith) hden_pos
      have hinterp_le :
          (candidateBoundary st.tracking stepDeg st.prevPhase - st.prevPhase) /
            (currPhase - st.prevPhase) ≤ 1 := by
        rw [div_le_one hden_pos]
        linarith
      have hgap : 0 ≤ currJd - st.prevJd := by linarith
      have hcross_ge : st.prevJd ≤ st.prevJd +
          (candidateBoundary st.tracking stepDeg st.prevPhase - st.prevPhase) /
            (currPhase - st.prevPhase) * (currJd - st.prevJd) := by
        have := mul_nonneg (le_of_lt hinterp_pos) hgap
        linarith
      have hcross_le : st.prevJd +
          (candidateBoundary st.tracking stepDeg st.prevPhase - st.prevPhase) /
            (currPhase - st.prevPhase) * (currJd - st.prevJd) ≤ currJd := by
        have := mul_le_mul_of_nonneg_right hinterp_le hgap
        linarith
      have htrk' : 0 ≤ (st.tracking + 1) % maxIndex := by
        rcases eq_or_ne maxIndex 0 with hm | hm
        · rw [hm, Int.emod_zero]
          omega
        · exact Int.emod_nonneg _ hm
      have hres := ih
        { events := st.events ++ [(st.tracking,
            st.prevJd + (candidateBoundary st.tracking stepDeg st.prevPhase - st.prevPhase) /
              (currPhase - st.prevPhase) * (currJd - st.prevJd),
            qmod (candidateBoundary st.tracking stepDeg st.prevPhase) 360)]
          denoms := st.denoms ++ [currPhase - st.prevPhase]
          tracking := (st.tracking + 1) % maxIndex
          prevPhase := candidateBoundary st.tracking stepDeg st.prevPhase
          prevJd := st.prevJd +
            (candidateBoundary st.tracking stepDeg st.prevPhase - st.prevPhase) /
              (currPhase - st.prevPhase) * (currJd - st.prevJd) }
        htrk' hcross_le (le_trans ht0 hcross_ge) ?_ ?_ ?_
      · refine ⟨hres.1, le_trans hcross_ge hres.2.1, hres.2.2.1, hres.2.2.2.1,
          hres.2.2.2.2.1, hres.2.2.2.2.2.1, hres.2.2.2.2.2.2⟩
      · rw [List.map_append, List.pairwise_append]
        refine ⟨hpw, List.pairwise_singleton _ _, ?_⟩
        intro a ha b hb
        simp only [List.map_cons, List.map_nil, List.mem_singleton] at hb
        obtain ⟨e, he, rfl⟩ := List.mem_map.mp ha
        rw [hb]
        exact le_trans (hev e he).1 hcross_ge
      · intro e hemem
        rcases List.mem_append.mp hemem with hold | hnew
        · exact ⟨le_trans (hev e hold).1 hcross_ge, (hev e hold).2⟩
        · rw [List.mem_singleton] at hnew
          subst hnew
          exact ⟨le_refl _, le_trans ht0 hcross_ge⟩
      · intro d hd
        rcases List.mem_append.mp hd with hold | hnew
        · exact hden d hold
        · rw [List.mem_singleton] at hnew
          subst hnew
          exact hden_pos
    · exact ⟨htrk, le_refl _, hjd, ht0, hpw, hev, hden⟩

theorem phaseGo_inv (stepDeg : ℚ) (maxIndex : ℤ) (mode : PhaseMode) (t0 : ℚ)
    (hstep : 0 < stepDeg) :
    ∀ (samples : List (ℚ × ℚ × ℚ)) (st : DetectorState),
      List.Pairwise (fun a b : ℚ × ℚ × ℚ => a.1 ≤ b.1) samples →
      (∀ s ∈ samples, st.prevJd ≤ s.1) →
      0 ≤ st.tracking → t0 ≤ st.prevJd →
      List.Pairwise (· ≤ ·) (st.events.map (fun e => e.2.1)) →
      (∀ e ∈ st.events, e.2.1 ≤ st.prevJd ∧ t0 ≤ e.2.1) →
      (∀ d ∈ st.denoms, 0 < d) →
      0 ≤ (phaseGo stepDeg maxIndex mode samples st).tracking ∧
      t0 ≤ (phaseGo stepDeg maxIndex mode samples st).prevJd ∧
      List.Pairwise (· ≤ ·)
        ((phaseGo stepDeg maxIndex mode samples st).events.map (fun e => e.2.1)) ∧
      (∀ e ∈ (phaseGo stepDeg maxIndex mode samples st).events,
        e.2.1 ≤ (phaseGo stepDeg maxIndex mode samples st).prevJd ∧ t0 ≤ e.2.1) ∧
      (∀ d ∈ (phaseGo stepDeg maxIndex mode samples st).denoms, 0 < d) := by
  intro samples
  induction samples with
  | nil =>
    intro st _ _ htrk ht0 hpw hev hden
    exact ⟨htrk, ht0, hpw, hev, hden⟩
  | cons a rest ih =>
    obtain ⟨jd, sunLon, moonLon⟩ := a
    intro st hsort hbound htrk ht0 hpw hev hden
    have hrest_sort : List.Pairwise (fun a b : ℚ × ℚ × ℚ => a.1 ≤ b.1) rest :=
      (List.pairwise_cons.mp hsort).2
    have hhead : ∀ r ∈ rest, jd ≤ r.1 := (List.pairwise_cons.mp hsort).1
    have hjd : st.prevJd ≤ jd := hbound _ (List.mem_cons_self _ _)
    simp only [phaseGo]
    split_ifs with heq
    · exact ih
        { st with
          prevPhase := _unwrap_phase st.prevPhase (get_phase mode sunLon moonLon)
          prevJd := jd }
        hrest_sort hhead htrk (le_trans ht0 hjd) hpw
        (fun e he => ⟨le_trans (hev e he).1 hjd, (hev e he).2⟩) hden
    · have hinner := innerLoop_inv stepDeg maxIndex
        (_unwrap_phase st.prevPhase (get_phase mode sunLon moonLon)) jd t0 hstep
        (innerFuel stepDeg st.prevPhase
          (_unwrap_phase st.prevPhase (get_phase mode sunLon moonLon)))
        st htrk hjd ht0 hpw hev hden
      exact ih
        { innerLoop stepDeg maxIndex
            (_unwrap_phase st.prevPhase (get_phase mode sunLon moonLon)) jd
            (innerFuel stepDeg st.prevPhase
              (_unwrap_phase st.prevPhase (get_phase mode sunLon moonLon))) st with
          prevPhase := _unwrap_phase st.prevPhase (get_phase mode sunLon moonLon)
          prevJd := jd }
        hrest_sort hhead hinner.1 (le_trans ht0 hjd) hinner.2.2.2.2.1
        (fun e he => ⟨le_trans (hinner.2.2.2.2.2.1 e he).1 hinner.2.2.1,
          (hinner.2.2.2.2.2.1 e he).2⟩)
        hinner.2.2.2.2.2.2

/-- C1: for every input sample sequence ordered by non-decreasing time (and
valid detector parameters `0 ≤ initial_index`, `0 < step_degrees`), the
events returned by `_collect_phase_events` have non-decreasing
`crossing_time` values. -/
theorem detect_boundaries_times_mono (samples : List (ℚ × ℚ × ℚ)) (initialIndex : ℤ)
    (stepDeg : ℚ) (maxIndex : ℤ) (mode : PhaseMode)
    (hsort : List.Pairwise (fun a b : ℚ × ℚ × ℚ => a.1 ≤ b.1) samples)
    (hinit : 0 ≤ initialIndex) (hstep : 0 < stepDeg) :
    List.Pairwise (· ≤ ·)
      ((_collect_phase_events samples initialIndex stepDeg maxIndex mode).map
        (fun e => e.2.1)) := by
  match samples with
  | [] => simp [_collect_phase_events, collectPhaseState]
  | (jd0, sun0, moon0) :: rest =>
    have h := phaseGo_inv stepDeg maxIndex mode jd0 hstep rest
      { events := [], denoms := [], tracking := initialIndex
        prevPhase := get_phase mode sun0 moon0, prevJd := jd0 }
      (List.pairwise_cons.mp hsort).2 (List.pairwise_cons.mp hsort).1
      hinit (le_refl _) (by simp) (by simp) (by simp)
    exact h.2.2.1

theorem getLast?_getD_cons (x : ℚ) (l : List ℚ) (d : ℚ) :
    ((x :: l).getLast?).getD d = (l.getLast?).getD x := by
  cases l with
  | nil => rfl
  | cons b t =>
    rw [List.getLast?_cons_cons]
    cases h : (b :: t).getLast? with
    | none => exact absurd h (by simp)
    | some y => rfl

theorem phaseGo_prevJd (stepDeg : ℚ) (maxIndex : ℤ) (mode : PhaseMode) :
    ∀ (samples : List (ℚ × ℚ × ℚ)) (st : DetectorState),
      (phaseGo stepDeg maxIndex mode samples st).prevJd =
        ((samples.map (fun s => s.1)).getLast?).getD st.prevJd := by
  intro samples
  induction samples with
  | nil => intro st; rfl
  | cons a rest ih =>
    obtain ⟨jd, sunLon, moonLon⟩ := a
    intro st
    simp only [phaseGo, List.map_cons]
    rw [getLast?_getD_cons]
    split_ifs with heq
    · exact ih _
    · exact ih _

theorem getLast_map_cons (a : ℚ × ℚ × ℚ) (l : List (ℚ × ℚ × ℚ)) :
    ((l.map (fun s => s.1)).getLast?).getD a.1 =
      ((a :: l).getLast (List.cons_ne_nil a l)).1 := by
  induction l generalizing a with
  | nil => rfl
  | cons b t ih =>
    simp only [List.map_cons]
    rw [getLast?_getD_cons, ih b, List.getLast_cons_cons]

/-- C10: with time-ordered samples and valid parameters, the denominator
`curr_phase - prev_phase` is strictly positive at every evaluation of the
interpolation ratio (so no division by zero occurs), and every emitted
`crossing_time` lies in the closed interval bounded by the first and last
sample times. -/
theorem detect_boundaries_safe (first : ℚ × ℚ × ℚ) (rest : List (ℚ × ℚ × ℚ))
    (initialIndex : ℤ) (stepDeg : ℚ) (maxIndex : ℤ) (mode : PhaseMode)
    (hsort : List.Pairwise (fun a b : ℚ × ℚ × ℚ => a.1 ≤ b.1) (first :: rest))
    (hinit : 0 ≤ initialIndex) (hstep : 0 < stepDeg) :
    (∀ d ∈ collectPhaseDenoms (first :: rest) initialIndex stepDeg maxIndex mode, 0 < d) ∧
    (∀ e ∈ _collect_phase_events (first :: rest) initialIndex stepDeg maxIndex mode,
      first.1 ≤ e.2.1 ∧
        e.2.1 ≤ ((first :: rest).getLast (List.cons_ne_nil first rest)).1) := by
  obtain ⟨jd0, sun0, moon0⟩ := first
  have h := phaseGo_inv stepDeg maxIndex mode jd0 hstep rest
    { events := [], denoms := [], tracking := initialIndex
      prevPhase := get_phase mode sun0 moon0, prevJd := jd0 }
    (List.pairwise_cons.mp hsort).2 (List.pairwise_cons.mp hsort).1
    hinit (le_refl _) (by simp) (by simp) (by simp)
  have hlast := phaseGo_prevJd stepDeg maxIndex mode rest
    { events := [], denoms := [], tracking := initialIndex
      prevPhase := get_phase mode sun0 moon0, prevJd := jd0 }
  have hmap := getLast_map_cons (jd0, sun0, moon0) rest
  constructor
  · exact h.2.2.2.2
  · intro e he
    refine ⟨(h.2.2.2.1 e he).2, ?_⟩
    have := (h.2.2.2.1 e he).1
    rw [hlast] at this
    exact le_trans this (le_of_eq hmap)

theorem innerLoop_idx (stepDeg : ℚ) (maxIndex : ℤ) (currPhase currJd : ℚ)
    (initialIndex : ℤ) :
    ∀ (fuel : ℕ) (st : DetectorState),
      List.Chain' (fun a b : ℤ × ℚ × ℚ => b.1 = (a.1 + 1) % maxIndex) st.events →
      (∀ e ∈ st.events.head?, e.1 = initialIndex) →
      ((st.events = [] ∧ st.tracking = initialIndex) ∨
        (∃ e, st.events.getLast? = some e ∧ st.tracking = (e.1 + 1) % maxIndex)) →
      List.Chain' (fun a b : ℤ × ℚ × ℚ => b.1 = (a.1 + 1) % maxIndex)
        (innerLoop stepDeg maxIndex currPhase currJd fuel st).events ∧
      (∀ e ∈ (innerLoop stepDeg maxIndex currPhase currJd fuel st).events.head?,
        e.1 = initialIndex) ∧
      (((innerLoop stepDeg maxIndex currPhase currJd fuel st).events = [] ∧
          (innerLoop stepDeg maxIndex currPhase currJd fuel st).tracking = initialIndex) ∨
        (∃ e, (innerLoop stepDeg maxIndex currPhase currJd fuel st).events.getLast? = some e ∧
          (innerLoop stepDeg maxIndex currPhase currJd fuel st).tracking = (e.1 + 1) % maxIndex)) := by
  intro fuel
  induction fuel with
  | zero =>
    intro st hchain hhead hlast
    exact ⟨hchain, hhead, hlast⟩
  | succ n ih =>
    intro st hchain hhead hlast
    simp only [innerLoop]
    split_ifs with hcl
    · apply ih
      · rw [List.chain'_append]
        refine ⟨hchain, List.chain'_singleton _, ?_⟩
        intro x hx y hy
        simp only [List.head?_cons, Option.mem_def, Option.some.injEq] at hy
        subst hy
        rcases hlast with ⟨hnil, _⟩ | ⟨e, helast, htrk⟩
        · rw [hnil] at hx
          simp at hx
        · rw [helast] at hx
          simp only [Option.mem_def, Option.some.injEq] at hx
          subst hx
          exact htrk
      · intro e he
        cases hev : st.events with
        | nil =>
          rw [hev] at he
          simp only [List.nil_append, List.head?_cons, Option.mem_def,
            Option.some.injEq] at he
          subst he
          rcases hlast with ⟨_, htrk⟩ | ⟨e', helast, _⟩
          · exact htrk
          · rw [hev] at helast
            simp at helast
        | cons b t =>
          rw [hev] at he
          simp only [List.cons_append, List.head?_cons, Option.mem_def,
            Option.some.injEq] at he
          subst he
          apply hhead
          rw [hev]
          rfl
      · refine Or.inr ⟨(st.tracking,
          st.prevJd + (candidateBoundary st.tracking stepDeg st.prevPhase - st.prevPhase) /
            (currPhase - st.prevPhase) * (currJd - st.prevJd),
          qmod (candidateBoundary st.tracking stepDeg st.prevPhase) 360), ?_, rfl⟩
        exact List.getLast?_concat _
    · exact ⟨hchain, hhead, hlast⟩

theorem phaseGo_idx (stepDeg : ℚ) (maxIndex : ℤ) (mode : PhaseMode) (initialIndex : ℤ) :
    ∀ (samples : List (ℚ × ℚ × ℚ)) (st : DetectorState),
      List.Chain' (fun a b : ℤ × ℚ × ℚ => b.1 = (a.1 + 1) % maxIndex) st.events →
      (∀ e ∈ st.events.head?, e.1 = initialIndex) →
      ((st.events = [] ∧ st.tracking = initialIndex) ∨
        (∃ e, st.events.getLast? = some e ∧ st.tracking = (e.1 + 1) % maxIndex)) →
      List.Chain' (fun a b : ℤ × ℚ × ℚ => b.1 = (a.1 + 1) % maxIndex)
        (phaseGo stepDeg maxIndex mode samples st).events ∧
      (∀ e ∈ (phaseGo stepDeg maxIndex mode samples st).events.head?, e.1 = initialIndex) := by
  intro samples
  induction samples with
  | nil =>
    intro st hchain hhead _
    exact ⟨hchain, hhead⟩
  | cons a rest ih =>
    obtain ⟨jd, sunLon, moonLon⟩ := a
    intro st hchain hhead hlast
    simp only [phaseGo]
    split_ifs with heq
    · exact ih _ hchain hhead hlast
    · have hinner := innerLoop_idx stepDeg maxIndex
        (_unwrap_phase st.prevPhase (get_phase mode sunLon moonLon)) jd initialIndex
        (innerFuel stepDeg st.prevPhase
          (_unwrap_phase st.prevPhase (get_phase mode sunLon moonLon)))
        st hchain hhead hlast
      exact ih _ hinner.1 hinner.2.1 hinner.2.2

/-- C2: given `0 ≤ initial_index < max_index`, the first event's
`period_index` equals `initial_index` and every subsequent event's
`period_index` is `(previous + 1) mod max_index` — no index is skipped or
repeated. -/
theorem detect_boundaries_index_chain (samples : List (ℚ × ℚ × ℚ)) (initialIndex : ℤ)
    (maxIndex : ℤ) (stepDeg : ℚ) (mode : PhaseMode)
    (_hinit : 0 ≤ initialIndex) (_hlt : initialIndex < maxIndex) :
    (∀ e ∈ (_collect_phase_events samples initialIndex stepDeg maxIndex mode).head?,
      e.1 = initialIndex) ∧
    List.Chain' (fun a b : ℤ × ℚ × ℚ => b.1 = (a.1 + 1) % maxIndex)
      (_collect_phase_events samples initialIndex stepDeg maxIndex mode) := by
  match samples with
  | [] => exact ⟨by simp [_collect_phase_events, collectPhaseState], List.chain'_nil⟩
  | (jd0, sun0, moon0) :: rest =>
    have h := phaseGo_idx stepDeg maxIndex mode initialIndex rest
      { events := [], denoms := [], tracking := initialIndex
        prevPhase := get_phase mode sun0 moon0, prevJd := jd0 }
      List.chain'_nil (by simp) (Or.inl ⟨rfl, rfl⟩)
    exact ⟨h.2, h.1⟩

theorem innerLoop_phase_val (stepDeg : ℚ) (maxIndex : ℤ) (currPhase currJd : ℚ) :
    ∀ (fuel : ℕ) (st : DetectorState),
      (∀ e ∈ st.events, e.2.2 = qmod (((e.1 : ℚ) + 1) * stepDeg) 360) →
      ∀ e ∈ (innerLoop stepDeg maxIndex currPhase currJd fuel st).events,
        e.2.2 = qmod (((e.1 : ℚ) + 1) * stepDeg) 360 := by
  intro fuel
  induction fuel with
  | zero => intro st hev; exact hev
  | succ n ih =>
    intro st hev
    simp only [innerLoop]
    split_ifs with hcl
    · apply ih
      intro e he
      rcases List.mem_append.mp he with hold | hnew
      · exact hev e hold
      · rw [List.mem_singleton] at hnew
        subst hnew
        exact candidateBoundary_congr st.tracking stepDeg st.prevPhase
    · exact hev

theorem phaseGo_phase_val (stepDeg : ℚ) (maxIndex : ℤ) (mode : PhaseMode) :
    ∀ (samples : List (ℚ × ℚ × ℚ)) (st : DetectorState),
      (∀ e ∈ st.events, e.2.2 = qmod (((e.1 : ℚ) + 1) * stepDeg) 360) →
      ∀ e ∈ (phaseGo stepDeg maxIndex mode samples st).events,
        e.2.2 = qmod (((e.1 : ℚ) + 1) * stepDeg) 360 := by
  intro samples
  induction samples with
  | nil => intro st hev; exact hev
  | cons a rest ih =>
    obtain ⟨jd, sunLon, moonLon⟩ := a
    intro st hev
    simp only [phaseGo]
    split_ifs with heq
    · exact ih _ hev
    · exact ih _ (innerLoop_phase_val stepDeg maxIndex
        (_unwrap_phase st.prevPhase (get_phase mode sunLon moonLon)) jd
        (innerFuel stepDeg st.prevPhase
          (_unwrap_phase st.prevPhase (get_phase mode sunLon moonLon)))
        st hev)

/-- C3: every event emitted by `_collect_phase_events` reports
`boundary_phase_mod360` exactly equal (in exact rational arithmetic) to
`((period_index + 1) * step_degrees) mod 360`. -/
theorem detect_boundaries_boundary_phase (samples : List (ℚ × ℚ × ℚ))
    (initialIndex : ℤ) (stepDeg : ℚ) (maxIndex : ℤ) (mode : PhaseMode) :
    ∀ e ∈ _collect_phase_events samples initialIndex stepDeg maxIndex mode,
      e.2.2 = qmod (((e.1 : ℚ) + 1) * stepDeg) 360 := by
  match samples with
  | [] => intro e he; simp [_collect_phase_events, collectPhaseState] at he
  | (jd0, sun0, moon0) :: rest =>
    exact phaseGo_phase_val stepDeg maxIndex mode rest
      { events := [], denoms := [], tracking := initialIndex
        prevPhase := get_phase mode sun0 moon0, prevJd := jd0 }
      (by simp)

/-! ### A concrete detector run, used by the witnesses below: tithi mode,
samples carrying the phase linearly from 0° to 24° across one day. -/

theorem innerFuel_example : innerFuel 12 0 24 = 3 := by
  simp only [innerFuel, if_pos (show (0:ℚ) < 12 by norm_num)]
  rw [show ((24:ℚ) - 0) / 12 = ((2:ℤ):ℚ) by push_cast; norm_num, Int.ceil_intCast]
  rfl

theorem run_example :
    collectPhaseState [(0, 0, 0), (1, 0, 24)] 0 12 30 PhaseMode.tithi =
      { events := [(0, 1/2, 12), (1, 1, 24)], denoms := [24, 12], tracking := 2
        prevPhase := 24, prevJd := 1 } := by
  have hq0 : qmod (0:ℚ) 360 = 0 := qmod_eq_self 0 le_rfl (by norm_num)
  have hq12 : qmod (12:ℚ) 360 = 12 := qmod_eq_self 12 (by norm_num) (by norm_num)
  have hq24 : qmod (24:ℚ) 360 = 24 := qmod_eq_self 24 (by norm_num) (by norm_num)
  norm_num [collectPhaseState, phaseGo, innerLoop, innerFuel_example, get_phase,
    _unwrap_phase, candidateBoundary, hq0, hq12, hq24]

theorem events_example :
    _collect_phase_events [(0, 0, 0), (1, 0, 24)] 0 12 30 PhaseMode.tithi =
      [(0, 1/2, 12), (1, 1, 24)] := by
  unfold _collect_phase_events
  rw [run_example]

theorem denoms_example :
    collectPhaseDenoms [(0, 0, 0), (1, 0, 24)] 0 12 30 PhaseMode.tithi = [24, 12] := by
  unfold collectPhaseDenoms
  rw [run_example]

/-- C1 witness: the theorem applied to the concrete two-sample run. -/
theorem detect_boundaries_times_mono_witness :
    List.Pairwise (· ≤ ·)
      ((_collect_phase_events [(0, 0, 0), (1, 0, 24)] 0 12 30 PhaseMode.tithi).map
        (fun e => e.2.1)) :=
  detect_boundaries_times_mono [(0, 0, 0), (1, 0, 24)] 0 12 30 PhaseMode.tithi
    (by norm_num [List.pairwise_cons]) (by norm_num) (by norm_num)

/-- C2 witness: on the concrete run the head event carries index 0 and the
index chain law holds along the whole event list. -/
theorem detect_boundaries_index_chain_witness :
    ((0 : ℤ), (1 : ℚ)/2, (12 : ℚ)).1 = 0 ∧
    List.Chain' (fun a b : ℤ × ℚ × ℚ => b.1 = (a.1 + 1) % 30)
      (_collect_phase_events [(0, 0, 0), (1, 0, 24)] 0 12 30 PhaseMode.tithi) := by
  have h := detect_boundaries_index_chain [(0, 0, 0), (1, 0, 24)] 0 30 12 PhaseMode.tithi
    (by norm_num) (by norm_num)
  exact ⟨h.1 _ (by rw [events_example]; rfl), h.2⟩

/-- C3 witness: the first event of the concrete run reports boundary phase
`12 = ((0 + 1) * 12) mod 360`. -/
theorem detect_boundaries_boundary_phase_witness :
    ((0 : ℤ), (1 : ℚ)/2, (12 : ℚ)).2.2 = qmod ((((0 : ℤ) : ℚ) + 1) * 12) 360 :=
  detect_boundaries_boundary_phase [(0, 0, 0), (1, 0, 24)] 0 12 30 PhaseMode.tithi
    ((0 : ℤ), (1 : ℚ)/2, (12 : ℚ)) (by rw [events_example]; norm_num)

/-- C10 witness: on the concrete run the recorded interpolation denominator
24 is positive and the first crossing time 1/2 lies within the sampled
interval [0, 1]. -/
theorem detect_boundaries_safe_witness :
    (0 : ℚ) < 24 ∧ (0 : ℚ) ≤ 1/2 ∧ (1 : ℚ)/2 ≤ 1 := by
  have h := detect_boundaries_safe (0, 0, 0) [(1, 0, 24)] 0 12 30 PhaseMode.tithi
    (by norm_num [List.pairwise_cons]) (by norm_num) (by norm_num)
  have hd := h.1 24 (by rw [denoms_example]; norm_num)
  have he := h.2 ((0 : ℤ), (1 : ℚ)/2, (12 : ℚ)) (by rw [events_example]; norm_num)
  exact ⟨hd, he.1, he.2⟩
